import Mathlib

/- Verification development for the TableTurner SQL dump exporter
   (sql_parser_logic/SqlParserLogic.py) and its row-repair pass (SqlRepair.py).
   The Python code is shallowly embedded: strings become List Char / String,
   Python ints become Int, fallible operations become Option. -/

/- Character constants, written via code points to keep quoting uniform. -/

def sqQuote : Char := Char.ofNat 39

def bSlash : Char := Char.ofNat 92

def bTick : Char := Char.ofNat 96

def dQuote : Char := Char.ofNat 34

/- Model of Python str.isspace / regex whitespace for the characters that matter. -/

def pyIsSpace (c : Char) : Bool :=
  c = ' ' || c = '\t' || c = '\n' || c = '\r' || c = Char.ofNat 11 || c = Char.ofNat 12 ||
  c = Char.ofNat 28 || c = Char.ofNat 29 || c = Char.ofNat 30 || c = Char.ofNat 31 ||
  c = Char.ofNat 133 || c = Char.ofNat 160 || c = Char.ofNat 0x1680 ||
  (decide (0x2000 ≤ c.toNat) && decide (c.toNat ≤ 0x200a)) ||
  c = Char.ofNat 0x2028 || c = Char.ofNat 0x2029 || c = Char.ofNat 0x202f ||
  c = Char.ofNat 0x205f || c = Char.ofNat 0x3000

/- Python str.strip(): drop whitespace from both ends. -/

def pyStripR (l : List Char) : List Char := (l.reverse.dropWhile pyIsSpace).reverse

def pyStrip (l : List Char) : List Char := pyStripR (l.dropWhile pyIsSpace)

/- Python str.removesuffix(';'). -/

def pyRemoveSuffixSemi (l : List Char) : List Char :=
  if l.getLast? = some ';' then l.dropLast else l

/- Python str.lower(), ASCII fragment. -/

def pyLowerStr (s : String) : String := String.mk (s.data.map Char.toLower)

/- Python str.isdigit(), ASCII fragment: nonempty and all digits. -/

def pyIsDigitStr (s : String) : Bool := !s.data.isEmpty && s.data.all Char.isDigit

def isWordChar (c : Char) : Bool := c.isAlphanum || c = '_'

def isQuoteCh (c : Char) : Bool := c = bTick || c = sqQuote || c = dQuote

/- Python str.split(sep) for a single-character separator. -/

def splitOnChar (sep : Char) : List Char → List (List Char)
  | [] => [[]]
  | c :: t =>
    match splitOnChar sep t with
    | [] => [[c]]
    | h :: hs => if c = sep then [] :: h :: hs else (c :: h) :: hs

/- Insertion preserving first occurrences; models dict-key insertion order. -/

def insertNew {α : Type} [DecidableEq α] (ks : List α) (n : α) : List α :=
  if n ∈ ks then ks else ks ++ [n]

/- Deduplication keeping first occurrences; models building a set of rows
   where only membership matters (Python set iteration order is arbitrary). -/

def uniqueList {α : Type} [DecidableEq α] (l : List α) : List α := l.foldl insertNew []

/- Substring containment test for Python `sep in s` / split behaviour. -/

def containsSub (pat : List Char) : List Char → Bool
  | [] => pat.isPrefixOf ([] : List Char)
  | c :: t => pat.isPrefixOf (c :: t) || containsSub pat t

/- Python str.split(sep) for a multi-character separator. -/

def splitSeqGo (sep : List Char) (cur : List Char) : List Char → List (List Char)
  | [] => [cur.reverse]
  | c :: t =>
    if sep ≠ [] ∧ sep.isPrefixOf (c :: t) then
      cur.reverse :: splitSeqGo sep [] ((c :: t).drop sep.length)
    else
      splitSeqGo sep (c :: cur) t
termination_by l => l.length
decreasing_by
  · simp only [List.length_drop, List.length_cons]
    have hne : sep ≠ [] := by
      rename_i h
      exact h.1
    have : 1 ≤ sep.length := by
      cases sep with
      | nil => exact absurd rfl hne
      | cons a b => simp
    omega
  · simp

def splitSeq (sep l : List Char) : List (List Char) := splitSeqGo sep [] l

/- Python str.replace(pat, ''), non-overlapping left-to-right. -/

def replaceRemove (pat : List Char) : List Char → List Char
  | [] => []
  | c :: t =>
    if pat ≠ [] ∧ pat.isPrefixOf (c :: t) then
      replaceRemove pat ((c :: t).drop pat.length)
    else
      c :: replaceRemove pat t
termination_by l => l.length
decreasing_by
  · simp only [List.length_drop, List.length_cons]
    have hne : pat ≠ [] := by
      rename_i h
      exact h.1
    have : 1 ≤ pat.length := by
      cases pat with
      | nil => exact absurd rfl hne
      | cons a b => simp
    omega
  · simp

/- Backtracking one-or-more matcher: consumes at least one character satisfying p,
   then requires the continuation to succeed on some split. -/

def plusThen (p : Char → Bool) (k : List Char → Bool) : List Char → Bool
  | [] => false
  | c :: cs => p c && (k cs || plusThen p k cs)

def notAtWs (c : Char) : Bool := !(c = '@') && !(pyIsSpace c)

/- The email regex of SqlRepair.py, prefix-match semantics of re.match. -/

def emailMatch (l : List Char) : Bool :=
  plusThen notAtWs (fun r1 =>
    match r1 with
    | '@' :: r2 =>
      plusThen notAtWs (fun r3 =>
        match r3 with
        | '.' :: r4 => plusThen notAtWs (fun _ => true) r4
        | _ => false) r2
    | _ => false) l

/- One inferred column of SchemaAnalyzer: name, inferred type, position. -/

structure SchemaCol where
  name : String
  ctype : String
  index : Nat
deriving DecidableEq

def dfltCol : SchemaCol := ⟨"", "", 0⟩

/- RowRepairer._calculate_match_score. -/

def matchScore (v : String) (t : String) : Int :=
  if v = "" ∨ pyLowerStr v = "null" then 0
  else if t = "email" ∧ emailMatch v.data then 10
  else if t = "integer" ∧ pyIsDigitStr v then 5
  else if t = "string" ∧ ¬(v = "") then 1
  else 0

/- Inner scoring loop of RowRepairer.repair for one offset. -/

def scoreLoop (schema : List SchemaCol) (off : Int) : Nat → List String → Int
  | _, [] => 0
  | i, v :: vs =>
    (if 0 ≤ (i : Int) + off ∧ (i : Int) + off < (schema.length : Int)
     then matchScore v (List.getD schema ((i : Int) + off).toNat dfltCol).ctype
     else 0) + scoreLoop schema off (i + 1) vs

def totalScore (vals : List String) (schema : List SchemaCol) (off : Int) : Int :=
  scoreLoop schema off 0 vals

/- The offsets scanned by repair: range(-len(vals), len(schema)) in ascending order. -/

def offsetsList (vals : List String) (schema : List SchemaCol) : List Int :=
  (List.range (vals.length + schema.length)).map
    (fun k => Int.ofNat k - Int.ofNat vals.length)

/- One iteration of the best-offset scan: a strictly higher score replaces the best. -/

def repairStep (vals : List String) (schema : List SchemaCol) (acc : Int × Int) (off : Int) :
    Int × Int :=
  if totalScore vals schema off > acc.2 then (off, totalScore vals schema off) else acc

/- The (best_offset, highest_score) pair after the scan, initialised to (0, -1). -/

def repairFold (vals : List String) (schema : List SchemaCol) : Int × Int :=
  (offsetsList vals schema).foldl (repairStep vals schema) (0, -1)

/- Reconstruction loop: overwrite in-range positions of the NULL-initialised row. -/

def overwriteLoop (schemaLen : Nat) (off : Int) : Nat → List String → List String → List String
  | _, [], acc => acc
  | i, v :: vs, acc =>
    overwriteLoop schemaLen off (i + 1) vs
      (if 0 ≤ (i : Int) + off ∧ (i : Int) + off < (schemaLen : Int)
       then acc.set ((i : Int) + off).toNat v else acc)

/- RowRepairer.repair. -/

def repairRow (vals : List String) (schema : List SchemaCol) : Option (List String) :=
  if (repairFold vals schema).2 ≤ 0 then none
  else some (overwriteLoop schema.length (repairFold vals schema).1 0 vals
              (List.replicate schema.length "NULL"))

/- SchemaAnalyzer._infer_type: classify one sampled value. -/

def classifyVal (v : String) : String :=
  if pyIsDigitStr v then "integer"
  else if emailMatch v.data then "email"
  else "string"

/- The classified values of a column sample: empty and "null" entries are skipped. -/

def classifications (cd : List String) : List String :=
  (cd.filter (fun v => ¬(v = "" ∨ pyLowerStr v = "null"))).map classifyVal

/- SchemaAnalyzer._infer_type: majority vote via Counter.most_common(1), whose tie
   break is the first-seen key because Counter preserves first-insertion order and
   max keeps the first maximal item. -/

def inferType (cd : List String) : String :=
  match uniqueList (classifications cd) with
  | [] => "string"
  | k :: ks =>
    ks.foldl (fun b k2 =>
      if (classifications cd).count k2 > (classifications cd).count b then k2 else b) k

/- Model of csv.reader (dialect excel, escapechar backslash) on one buffered line,
   following the CPython state machine; None models an exception / StopIteration. -/

inductive CsvSt where
  | startR
  | startF
  | inF
  | esc
  | inQ
  | escQ
  | quoteQ
  | eatCr
  | err

structure CsvAcc where
  st : CsvSt
  field : List Char
  fields : List String

def csvPush (a : CsvAcc) : CsvAcc :=
  { a with fields := a.fields ++ [String.mk a.field], field := [] }

def csvStepF (a : CsvAcc) (c : Char) : CsvAcc :=
  if c = dQuote then { a with st := CsvSt.inQ }
  else if c = bSlash then { a with st := CsvSt.esc }
  else if c = ',' then { csvPush a with st := CsvSt.startF }
  else if c = '\n' ∨ c = '\r' then { csvPush a with st := CsvSt.eatCr }
  else { a with st := CsvSt.inF, field := a.field ++ [c] }

def csvStep (a : CsvAcc) (c : Char) : CsvAcc :=
  match a.st with
  | CsvSt.err => a
  | CsvSt.startR => if c = '\n' ∨ c = '\r' then { a with st := CsvSt.eatCr } else csvStepF a c
  | CsvSt.startF => csvStepF a c
  | CsvSt.inF =>
    if c = bSlash then { a with st := CsvSt.esc }
    else if c = ',' then { csvPush a with st := CsvSt.startF }
    else if c = '\n' ∨ c = '\r' then { csvPush a with st := CsvSt.eatCr }
    else { a with field := a.field ++ [c] }
  | CsvSt.esc => { a with st := CsvSt.inF, field := a.field ++ [c] }
  | CsvSt.inQ =>
    if c = bSlash then { a with st := CsvSt.escQ }
    else if c = dQuote then { a with st := CsvSt.quoteQ }
    else { a with field := a.field ++ [c] }
  | CsvSt.escQ => { a with st := CsvSt.inQ, field := a.field ++ [c] }
  | CsvSt.quoteQ =>
    if c = dQuote then { a with st := CsvSt.inQ, field := a.field ++ [dQuote] }
    else if c = ',' then { csvPush a with st := CsvSt.startF }
    else if c = '\n' ∨ c = '\r' then { csvPush a with st := CsvSt.eatCr }
    else { a with st := CsvSt.inF, field := a.field ++ [c] }
  | CsvSt.eatCr => if c = '\n' ∨ c = '\r' then a else { a with st := CsvSt.err }

def csvFinish (a : CsvAcc) : Option (List String) :=
  match a.st with
  | CsvSt.err => none
  | CsvSt.startR => some a.fields
  | CsvSt.eatCr => some a.fields
  | CsvSt.esc => some (a.fields ++ [String.mk (a.field ++ ['\n'])])
  | _ => some (a.fields ++ [String.mk a.field])

def csvParseLine (l : List Char) : Option (List String) :=
  csvFinish (l.foldl csvStep ⟨CsvSt.startR, [], []⟩)

/- Field splitting of one closed tuple buffer: csv.reader on the stripped buffer,
   falling back to a naive comma split when the reader raises. -/

def emitRow (buf : List Char) : List String :=
  let t := pyStrip buf
  match csvParseLine t with
  | some fs => fs
  | none => (splitOnChar ',' t).map String.mk

/- State of the VALUES tokenizer: quoted-literal flag, parenthesis depth (a Python
   int, which may go negative), current tuple buffer, emitted rows. -/

structure TokSt where
  inStr : Bool
  lvl : Int
  buf : List Char
  rows : List (List String)

def initTok : TokSt := ⟨false, 0, [], []⟩

/- Quote toggle of SqlParser._parse_values_string (naive backslash lookback). -/

def quoteFlagExport (st : TokSt) (c : Char) : Bool :=
  if c = sqQuote ∧ (st.buf = [] ∨ st.buf.getLast? ≠ some bSlash) then !st.inStr else st.inStr

/- Quote toggle of SqlRepair._parse_values_string (same test, `not char_buffer` form). -/

def quoteFlagRepair (st : TokSt) (c : Char) : Bool :=
  if c = sqQuote ∧ (st.buf.isEmpty ∨ st.buf.getLast? ≠ some bSlash) then !st.inStr else st.inStr

/- One character of SqlParser._parse_values_string (nested if structure). -/

def tokStepExport (st : TokSt) (c : Char) : TokSt :=
  let inS := quoteFlagExport st c
  let st1 : TokSt := { st with inStr := inS }
  if ¬inS then
    if c = '(' then
      let lv := st1.lvl + 1
      if lv = 1 then { st1 with lvl := lv, buf := [] }
      else { st1 with lvl := lv, buf := if lv > 0 then st1.buf ++ [c] else st1.buf }
    else if c = ')' then
      let lv := st1.lvl - 1
      if lv = 0 then { st1 with lvl := lv, buf := [], rows := st1.rows ++ [emitRow st1.buf] }
      else { st1 with lvl := lv, buf := if lv > 0 then st1.buf ++ [c] else st1.buf }
    else { st1 with buf := if st1.lvl > 0 then st1.buf ++ [c] else st1.buf }
  else { st1 with buf := if st1.lvl > 0 then st1.buf ++ [c] else st1.buf }

/- One character of SqlRepair._parse_values_string (flattened and-conditions). -/

def tokStepRepair (st : TokSt) (c : Char) : TokSt :=
  let inS := quoteFlagRepair st c
  let st1 : TokSt := { st with inStr := inS }
  if ¬inS ∧ c = '(' then
    let lv := st1.lvl + 1
    if lv = 1 then { st1 with lvl := lv, buf := [] }
    else { st1 with lvl := lv, buf := if lv > 0 then st1.buf ++ [c] else st1.buf }
  else if ¬inS ∧ c = ')' then
    let lv := st1.lvl - 1
    if lv = 0 then { st1 with lvl := lv, buf := [], rows := st1.rows ++ [emitRow st1.buf] }
    else { st1 with lvl := lv, buf := if lv > 0 then st1.buf ++ [c] else st1.buf }
  else { st1 with buf := if st1.lvl > 0 then st1.buf ++ [c] else st1.buf }

/- SqlParser._parse_values_string on a raw values fragment. -/

def runTokExport (l : List Char) : List (List String) :=
  (l.foldl tokStepExport initTok).rows

/- SqlRepair._parse_values_string: strips and removes one trailing semicolon first. -/

def runTokRepair (l : List Char) : List (List String) :=
  ((pyRemoveSuffixSemi (pyStrip l)).foldl tokStepRepair initTok).rows

/- Case-insensitive literal prefix test (pattern given lowercase). -/

def ciHasPre : List Char → List Char → Bool
  | [], _ => true
  | _ :: _, [] => false
  | p :: ps, c :: cs => (c.toLower = p) && ciHasPre ps cs

def vKey : List Char := "values".data

def ctKey : List Char := "create table ".data

def iiKey : List Char := "insert into".data

def iiSpKey : List Char := "insert into ".data

/- re.search of `VALUES\s*(.*)` (IGNORECASE | DOTALL): everything after the first
   case-insensitive VALUES, leading whitespace dropped. -/

def valuesSearch : List Char → Option (List Char)
  | [] => none
  | c :: t =>
    if ciHasPre vKey (c :: t) then some (((c :: t).drop vKey.length).dropWhile pyIsSpace)
    else valuesSearch t

/- Optional opening quote then a nonempty greedy run of word characters: the
   `[`'"]?(\w+)` fragment of the CREATE/INSERT table-name regexes. -/

def matchNameAfter (u : List Char) : Option (List Char) :=
  match u with
  | [] => none
  | c :: t =>
    if isQuoteCh c then
      (let w := t.takeWhile isWordChar; if w = [] then none else some w)
    else
      (let w := (c :: t).takeWhile isWordChar; if w = [] then none else some w)

/- re.search of `CREATE TABLE [`'"]?(\w+)[`'"]?` (IGNORECASE): leftmost match. -/

def createSearch : List Char → Option (List Char)
  | [] => none
  | c :: t =>
    if ciHasPre ctKey (c :: t) then
      match matchNameAfter ((c :: t).drop ctKey.length) with
      | some w => some w
      | none => createSearch t
    else createSearch t

/- re.search of `INSERT INTO [`'"]?(\w+)[`'"]?` (IGNORECASE): leftmost match. -/

def insertSearch : List Char → Option (List Char)
  | [] => none
  | c :: t =>
    if ciHasPre iiSpKey (c :: t) then
      match matchNameAfter ((c :: t).drop iiSpKey.length) with
      | some w => some w
      | none => insertSearch t
    else insertSearch t

/- Tail of the inline-header regex after the closing `) `: `\s*` then a literal
   space then VALUES (boolean existence under backtracking). -/

def trySpacesValues : List Char → Bool
  | [] => false
  | c :: t => (c = ' ' && ciHasPre vKey t) || (pyIsSpace c && trySpacesValues t)

/- Does ` ) ` followed by `\s* VALUES` match right here? -/

def closesHere : List Char → Bool
  | ' ' :: ')' :: ' ' :: w => trySpacesValues w
  | _ => false

/- Lazy capture scan for `(.*?) \) \s* VALUES`: the shortest capture that lets the
   rest of the pattern match. -/

def tryClose : List Char → List Char → Option (List Char)
  | _, [] => none
  | acc, c :: rest => if closesHere (c :: rest) then some acc.reverse else tryClose (c :: acc) rest

/- Lazy `.*?` scan for the `\( (.*?)` part: earliest `( ` whose capture closes. -/

def tryAfterInsert : List Char → Option (List Char)
  | [] => none
  | c :: t =>
    match (if c = '(' then (match t with | ' ' :: rest => tryClose [] rest | _ => none) else none) with
    | some cap => some cap
    | none => tryAfterInsert t

/- re.search of `INSERT INTO.*?\( (.*?) \) \s* VALUES` (IGNORECASE | DOTALL):
   note the literal spaces inside the pattern around the parentheses. -/

def inlineSearch : List Char → Option (List Char)
  | [] => none
  | c :: t =>
    match (if ciHasPre iiKey (c :: t) then tryAfterInsert ((c :: t).drop iiKey.length) else none) with
    | some cap => some cap
    | none => inlineSearch t

/- re.search of `\((.*)\)` (DOTALL), greedy: from the first '(' to the last ')'. -/

def extractParenContent (l : List Char) : Option (List Char) :=
  match l.dropWhile (fun c => ¬(c = '(')) with
  | '(' :: rest =>
    match rest.reverse.dropWhile (fun c => ¬(c = ')')) with
    | ')' :: revCore => some revCore.reverse
    | _ => none
  | _ => none

/- re.sub of `\([^)]*\)` with '': remove parenthesized fragments without a nested
   closing parenthesis, scanning left to right non-overlapping. -/

def removeFrags : List Char → List Char
  | [] => []
  | c :: t =>
    if c = '(' then
      match h : t.dropWhile (fun d => ¬(d = ')')) with
      | ')' :: b => removeFrags b
      | _ => c :: t
    else
      c :: removeFrags t
termination_by l => l.length
decreasing_by
  · have hlen : (t.dropWhile (fun d => ¬(d = ')'))).length ≤ t.length :=
      (List.dropWhile_sublist _).length_le
    rw [h] at hlen
    simp only [List.length_cons] at hlen ⊢
    omega
  · simp

/- Skip test for column-definition lines in _get_headers_from_create_stmt. -/

def startsWithAnyCI (l : List Char) : Bool :=
  let low := l.map Char.toLower
  ("primary".data.isPrefixOf low) || ("unique".data.isPrefixOf low) ||
  ("key".data.isPrefixOf low) || ("constraint".data.isPrefixOf low) ||
  (")".data.isPrefixOf low)

/- re.findall of `^[ `'"]?(\w+)[`'"]?` on one definition line: first capture. -/

def headerColOf (line : List Char) : Option (List Char) :=
  match line with
  | [] => none
  | c :: t =>
    if c = ' ' ∨ isQuoteCh c then
      (let w := t.takeWhile isWordChar; if w = [] then none else some w)
    else
      (let w := (c :: t).takeWhile isWordChar; if w = [] then none else some w)

/- SqlParser._get_headers_from_create_stmt. -/

def headersFromCreate (stmt : String) : List String :=
  match extractParenContent stmt.data with
  | none => []
  | some content =>
    ((splitOnChar '\n' (removeFrags content)).map pyStrip).filterMap (fun ln =>
      if ln ≠ [] ∧ ¬startsWithAnyCI ln then (headerColOf ln).map String.mk else none)

/- One table's index entry: the CREATE statement text ('' when absent) and the
   accumulated INSERT statements in file order. -/

structure TableEntry where
  create : String
  inserts : List String
deriving DecidableEq

/- Inline header resolution in process_table: strip quoting characters from the
   captured list, split on commas, strip each name. -/

def inlineActive (stmt : String) : Option (List String) :=
  (inlineSearch stmt.data).map (fun cap =>
    (splitOnChar ',' (cap.filter (fun c => ¬ isQuoteCh c))).map (fun f => String.mk (pyStrip f)))

/- Synthesized `column_1..column_N` headers. -/

def synthHeaders (n : Nat) : List String :=
  (List.range n).map (fun i => "column_" ++ toString (i + 1))

/- Python str(list-of-str), used for the wrong-length channel. -/

def reprRow (r : List String) : String :=
  let q := String.mk [sqQuote]
  "[" ++ String.intercalate ", " (r.map (fun s => q ++ s ++ q)) ++ "]"

/- Per-statement body of process_table: resolve the active header, extract and
   tokenize the VALUES fragment, and split rows into kept and wrong-length. -/

def statementSplit (dh : List String) (stmt : String) : List (List String) × List String :=
  let active0 := match inlineActive stmt with | some hs => hs | none => dh
  match valuesSearch stmt.data with
  | none => ([], [])
  | some vs =>
    let rows := runTokExport vs
    let active := if active0 = [] ∧ rows ≠ [] then synthHeaders (rows.headD []).length else active0
    (rows.filter (fun r => r.length = active.length),
     (rows.filter (fun r => ¬(r.length = active.length))).map reprRow)

/- The kept rows of a list of insert statements, in processing order. -/

def allKept (dh : List String) (stmts : List String) : List (List String) :=
  ((stmts.map (fun st => (statementSplit dh st).1)).flatten : List (List String))

/- SqlParser._write_to_csv, reduced to its data content: header row and data rows
   of the written CSV (None when no unique rows exist and no file is written). -/

def writeToCsvModel (tableName : String) (headers : List String) (values : List (List String)) :
    Option (List String × List (List String)) :=
  if values ≠ [] then
    some ((if "table" ∈ headers then headers else headers ++ ["table"]),
          (values.filter (fun r => r.length = headers.length)).map (fun r => r ++ [tableName]))
  else none

/- The data produced by one process_table invocation. -/

structure ExportResult where
  allValues : List (List String)
  wrongLength : List String
  uniqueValues : List (List String)
  written : Option (List String × List (List String))
deriving DecidableEq

/- SqlParser.process_table with format csv. -/

def processTableModel (entry : TableEntry) (tableName : String) : ExportResult :=
  let dh := if entry.create ≠ "" then headersFromCreate entry.create else []
  let pr := entry.inserts.foldl
    (fun acc st =>
      let p := statementSplit dh st
      (acc.1 ++ p.1, acc.2 ++ p.2)) ([], [])
  let uniq := uniqueList pr.1
  let whdrs := if dh ≠ [] then dh else (if uniq ≠ [] then ["column_1"] else [])
  { allValues := pr.1, wrongLength := pr.2, uniqueValues := uniq,
    written := writeToCsvModel tableName whdrs uniq }

/- Lookup in the ordered table index (Python dict with insertion order). -/

def findEntry : List (String × TableEntry) → String → Option TableEntry
  | [], _ => none
  | p :: t, n => if p.1 = n then some p.2 else findEntry t n

/- SqlParser._ensure_table_in_index. -/

def ensureTable (idx : List (String × TableEntry)) (n : String) : List (String × TableEntry) :=
  if (findEntry idx n).isSome then idx else idx ++ [(n, ⟨"", []⟩)]

def setCreate (idx : List (String × TableEntry)) (n : String) (stmt : String) :
    List (String × TableEntry) :=
  idx.map (fun p => if p.1 = n then (p.1, TableEntry.mk stmt p.2.inserts) else p)

def addInsert (idx : List (String × TableEntry)) (n : String) (stmt : String) :
    List (String × TableEntry) :=
  idx.map (fun p => if p.1 = n then (p.1, TableEntry.mk p.2.create (p.2.inserts ++ [stmt])) else p)

/- Classification of one complete statement in build_index. -/

def stepStmt (idx : List (String × TableEntry)) (stmt : String) : List (String × TableEntry) :=
  match createSearch stmt.data with
  | some w => setCreate (ensureTable idx (String.mk w)) (String.mk w) stmt
  | none =>
    match insertSearch stmt.data with
    | some w => addInsert (ensureTable idx (String.mk w)) (String.mk w) stmt
    | none => idx

/- Statement segmentation of build_index: accumulate stripped nonempty lines until
   one ends with ';', then join the buffer with newlines. -/

def segmentStep (acc : List String × List String) (line : String) : List String × List String :=
  let ls := pyStrip line.data
  if ls = [] then acc
  else
    let buf := acc.2 ++ [String.mk ls]
    if ls.getLast? = some ';' then (acc.1 ++ [String.intercalate "\n" buf], [])
    else (acc.1, buf)

def segmentStatements (lines : List String) : List String :=
  (lines.foldl segmentStep ([], [])).1

/- SqlParser.build_index over the file's lines; returns the populated index. -/

def buildIndexModel (lines : List String) : List (String × TableEntry) :=
  (segmentStatements lines).foldl stepStmt []

/- The return value of build_index: list(self.index.keys()). -/

def buildIndexKeys (lines : List String) : List String :=
  (buildIndexModel lines).map Prod.fst

/- The table name a statement registers in the index, if any (CREATE first). -/

def discoveredName (stmt : String) : Option String :=
  match createSearch stmt.data with
  | some w => some (String.mk w)
  | none => (insertSearch stmt.data).map String.mk

/- Table-name extraction of SqlRepair.run_recovery: name.split(' - ')[1] with the
   '.csv' suffix removed; None models the IndexError when no ' - ' occurs. -/

def extractTableName (csvName : String) : Option String :=
  match splitSeq " - ".data csvName.data with
  | _ :: second :: _ => some (String.mk (replaceRemove ".csv".data second))
  | _ => none

/- Per-line body of run_recovery: re-tokenize the fragment after VALUES (or the
   whole stripped line) and route each row to recovered or still-failed. -/

def repairLineStep (schema : List SchemaCol) (tname : String)
    (acc : List (List String) × List String) (line : String) :
    List (List String) × List String :=
  let ls := pyStrip line.data
  if ls = [] then acc
  else
    let vs := match valuesSearch ls with | some v => v | none => ls
    (runTokRepair vs).foldl
      (fun acc2 r =>
        match repairRow r schema with
        | some rr => (acc2.1 ++ [rr ++ [tname]], acc2.2)
        | none => (acc2.1, acc2.2 ++ [reprRow r])) acc

/- SqlRepair.run_recovery, reduced to its data content: None models the uncaught
   IndexError raised by the table-name extraction before anything is written. -/

def runRecoveryModel (csvName : String) (schema : List SchemaCol) (failLines : List String) :
    Option (List (List String) × List String) :=
  match splitSeq " - ".data csvName.data with
  | _ :: second :: _ =>
    let tname := String.mk (replaceRemove ".csv".data second)
    some (failLines.foldl (repairLineStep schema tname) ([], []))
  | _ => none

/- Concrete inputs used by the claim theorems and witnesses. -/

def qS : String := String.mk [sqQuote]

def c1Stmt : String := "INSERT INTO t VALUES (1,2);"

def c1Entry : TableEntry := ⟨"", [c1Stmt]⟩

def c2Stmt : String :=
  "INSERT INTO users (id, email) VALUES (1, " ++ qS ++ "a@b.com" ++ qS ++ "), (2, " ++
    qS ++ "bad" ++ qS ++ ");"

def c2Entry : TableEntry := ⟨"", [c2Stmt]⟩

def c2Row1 : List String := ["1", " " ++ qS ++ "a@b.com" ++ qS]

def c2Row2 : List String := ["2", " " ++ qS ++ "bad" ++ qS]

def exEmailSchema : List SchemaCol := [⟨"e", "email", 0⟩, ⟨"n", "string", 1⟩]

def exIntSchema : List SchemaCol := [⟨"a", "integer", 0⟩]

def exStrSchema : List SchemaCol := [⟨"a", "string", 0⟩]

def c4Vals : List String := ["NULL"]

def c5Vals : List String := ["5"]

def c3Vals : List String := ["a@b.com"]

def c8Sample : List String := ["alpha", "5"]

def c6StmtA : String := "INSERT INTO t VALUES (1);"

def c6StmtB : String := "INSERT INTO t VALUES (2);"

def c7Idx : List (String × TableEntry) := [("t", ⟨"old", ["i1"]⟩)]

def c7Create : String := "CREATE TABLE t (x);"

/- Helper lemmas about the repair scoring. -/

theorem matchScore_nonneg (v t : String) : 0 ≤ matchScore v t := by
  unfold matchScore
  split
  · omega
  split
  · omega
  split
  · omega
  split
  · omega
  · omega

theorem scoreLoop_nonneg (schema : List SchemaCol) (off : Int) :
    ∀ (vs : List String) (i : Nat), 0 ≤ scoreLoop schema off i vs
  | [], _ => by simp [scoreLoop]
  | v :: vs, i => by
    have h1 := scoreLoop_nonneg schema off vs (i + 1)
    have h2 : (0 : Int) ≤ (if 0 ≤ (i : Int) + off ∧ (i : Int) + off < (schema.length : Int)
        then matchScore v (List.getD schema ((i : Int) + off).toNat dfltCol).ctype else 0) := by
      split
      · exact matchScore_nonneg _ _
      · omega
    unfold scoreLoop
    omega

theorem totalScore_nonneg (vals : List String) (schema : List SchemaCol) (off : Int) :
    0 ≤ totalScore vals schema off :=
  scoreLoop_nonneg schema off vals 0

theorem scoreLoop_zero (schema : List SchemaCol) (off : Int) :
    ∀ (vs : List String) (i : Nat), (∀ v ∈ vs, ∀ col ∈ schema, matchScore v col.ctype = 0) →
      scoreLoop schema off i vs = 0
  | [], _, _ => by simp [scoreLoop]
  | v :: vs, i, h => by
    have h1 := scoreLoop_zero schema off vs (i + 1) (fun w hw => h w (List.mem_cons_of_mem _ hw))
    have h2 := h v (List.mem_cons_self _ _)
    unfold scoreLoop
    rw [h1]
    split
    · rename_i hg
      have hlt : ((i : Int) + off).toNat < schema.length := by omega
      have hmem : List.getD schema ((i : Int) + off).toNat dfltCol ∈ schema := by
        rw [List.getD_eq_getElem?_getD, List.getElem?_eq_getElem hlt]
        exact List.getElem_mem _
      rw [h2 _ hmem]
      omega
    · omega

/- Specification of the best-offset fold: the final score bounds every scanned
   score, and (unless nothing replaced the accumulator) the final pair is the
   first offset achieving the final score. -/

theorem repairFoldGen (vals : List String) (schema : List SchemaCol) :
    ∀ (l : List Int) (acc : Int × Int),
      (∀ o ∈ l, totalScore vals schema o ≤ (l.foldl (repairStep vals schema) acc).2)
      ∧ acc.2 ≤ (l.foldl (repairStep vals schema) acc).2
      ∧ ((l.foldl (repairStep vals schema) acc) = acc ∨
          ((l.foldl (repairStep vals schema) acc).2 =
              totalScore vals schema (l.foldl (repairStep vals schema) acc).1
           ∧ acc.2 < (l.foldl (repairStep vals schema) acc).2
           ∧ ∃ l₁ l₂, l = l₁ ++ (l.foldl (repairStep vals schema) acc).1 :: l₂
               ∧ ∀ x ∈ l₁, totalScore vals schema x < (l.foldl (repairStep vals schema) acc).2)) := by
  intro l
  induction l with
  | nil => intro acc; exact ⟨by simp, le_refl _, Or.inl rfl⟩
  | cons o t ih =>
    intro acc
    have hfold : (o :: t).foldl (repairStep vals schema) acc
        = t.foldl (repairStep vals schema) (repairStep vals schema acc o) := rfl
    obtain ⟨ih1, ih2, ih3⟩ := ih (repairStep vals schema acc o)
    have hacc : acc.2 ≤ (repairStep vals schema acc o).2 := by
      unfold repairStep
      split
      · omega
      · exact le_refl _
    have hscore : totalScore vals schema o ≤ (repairStep vals schema acc o).2 := by
      unfold repairStep
      split
      · exact le_refl _
      · omega
    refine ⟨?_, ?_, ?_⟩
    · intro x hx
      rw [hfold]
      rcases List.mem_cons.mp hx with hxo | hxt
      · subst hxo
        exact le_trans hscore ih2
      · exact ih1 x hxt
    · rw [hfold]
      exact le_trans hacc ih2
    · rw [hfold]
      rcases ih3 with heq | ⟨hv, hlt, l₁, l₂, hdec, hstrict⟩
      · by_cases hgt : totalScore vals schema o > acc.2
        · have hstep : repairStep vals schema acc o = (o, totalScore vals schema o) := by
            unfold repairStep
            rw [if_pos hgt]
          right
          rw [heq, hstep]
          refine ⟨rfl, hgt, [], t, rfl, by simp⟩
        · have hstep : repairStep vals schema acc o = acc := by
            unfold repairStep
            rw [if_neg hgt]
          left
          rw [heq, hstep]
      · right
        refine ⟨hv, lt_of_le_of_lt hacc hlt, o :: l₁, l₂, by rw [List.cons_append, ← hdec], ?_⟩
        intro x hx
        rcases List.mem_cons.mp hx with hxo | hxl
        · subst hxo
          exact lt_of_le_of_lt hscore hlt
        · exact hstrict x hxl

theorem offsetsList_pairwise (vals : List String) (schema : List SchemaCol) :
    (offsetsList vals schema).Pairwise (· < ·) := by
  unfold offsetsList
  refine List.pairwise_map.mpr ?_
  refine List.Pairwise.imp ?_ (List.pairwise_lt_range (vals.length + schema.length))
  intro a b hab
  simp only [Int.ofNat_eq_coe]
  omega

theorem repairRow_none_iff (vals : List String) (schema : List SchemaCol) :
    repairRow vals schema = none ↔ (repairFold vals schema).2 ≤ 0 := by
  unfold repairRow
  split
  · rename_i hc
    exact ⟨fun _ => hc, fun _ => rfl⟩
  · rename_i hc
    exact ⟨fun h => Option.noConfusion h, fun h => absurd h hc⟩

/-- C4: repair returns nothing exactly when no scanned offset achieves a positive
total score (the best achievable score is ≤ 0); in particular it returns nothing
whenever every field scores 0 against every schema column, e.g. all fields empty
or the literal NULL. -/
theorem c4_repair_none_iff (vals : List String) (schema : List SchemaCol) :
    (repairRow vals schema = none ↔
      ∀ o ∈ offsetsList vals schema, totalScore vals schema o ≤ 0)
    ∧ ((∀ v ∈ vals, ∀ col ∈ schema, matchScore v col.ctype = 0) →
        repairRow vals schema = none) := by
  obtain ⟨h1, h2, h3⟩ := repairFoldGen vals schema (offsetsList vals schema) (0, -1)
  have hRF : (offsetsList vals schema).foldl (repairStep vals schema) (0, -1)
      = repairFold vals schema := rfl
  rw [hRF] at h1 h2 h3
  have hiff : (repairFold vals schema).2 ≤ 0 ↔
      ∀ o ∈ offsetsList vals schema, totalScore vals schema o ≤ 0 := by
    constructor
    · intro hle o ho
      exact le_trans (h1 o ho) hle
    · intro hall
      rcases h3 with heq | ⟨hv, _, l₁, l₂, hdec, _⟩
      · rw [heq]
        simp
      · rw [hv]
        apply hall
        rw [hdec]
        exact List.mem_append.mpr (Or.inr (List.mem_cons_self _ _))
  constructor
  · rw [repairRow_none_iff]
    exact hiff
  · intro hz
    rw [repairRow_none_iff, hiff]
    intro o _
    rw [show totalScore vals schema o = scoreLoop schema o 0 vals from rfl,
      scoreLoop_zero schema o vals 0 hz]

/-- Witness for C4: the all-NULL single-field row is rejected by repair. -/
theorem c4_repair_none_iff_wit : repairRow c4Vals exStrSchema = none :=
  (c4_repair_none_iff c4Vals exStrSchema).2 (by decide)

/-- C5: for every input field list and schema, the offset used by repair is the
smallest scanned offset whose total score equals the maximum over all scanned
offsets (offsets scanned ascending from -len(vals)); an equal later score never
replaces the current best. -/
theorem c5_best_is_first_max (vals : List String) (schema : List SchemaCol)
    (hne : offsetsList vals schema ≠ []) :
    (repairFold vals schema).1 ∈ offsetsList vals schema
    ∧ (∀ o ∈ offsetsList vals schema,
        totalScore vals schema o ≤ totalScore vals schema (repairFold vals schema).1)
    ∧ ∀ o ∈ offsetsList vals schema,
        totalScore vals schema o = totalScore vals schema (repairFold vals schema).1 →
        (repairFold vals schema).1 ≤ o := by
  obtain ⟨h1, h2, h3⟩ := repairFoldGen vals schema (offsetsList vals schema) (0, -1)
  have hRF : (offsetsList vals schema).foldl (repairStep vals schema) (0, -1)
      = repairFold vals schema := rfl
  rw [hRF] at h1 h2 h3
  rcases h3 with heq | ⟨hv, _, l₁, l₂, hdec, hstrict⟩
  · exfalso
    obtain ⟨o₀, ho₀⟩ := List.exists_mem_of_ne_nil _ hne
    have hb := h1 o₀ ho₀
    rw [heq] at hb
    simp at hb
    have hnn := totalScore_nonneg vals schema o₀
    omega
  · have hmem : (repairFold vals schema).1 ∈ offsetsList vals schema := by
      rw [hdec]
      exact List.mem_append.mpr (Or.inr (List.mem_cons_self _ _))
    refine ⟨hmem, ?_, ?_⟩
    · intro o ho
      rw [← hv]
      exact h1 o ho
    · intro o ho hsame
      have hnotl₁ : o ∉ l₁ := by
        intro hol
        have hlt := hstrict o hol
        rw [hsame, ← hv] at hlt
        exact absurd hlt (lt_irrefl _)
      have hp := offsetsList_pairwise vals schema
      rw [hdec] at hp ho
      rcases List.mem_append.mp ho with hol | hor
      · exact absurd hol hnotl₁
      · rcases List.mem_cons.mp hor with hoe | hol₂
        · rw [hoe]
        · exact le_of_lt ((List.pairwise_cons.mp (List.pairwise_append.mp hp).2.1).1 o hol₂)

/-- Witness for C5 at a concrete input with two scanned offsets. -/
theorem c5_best_is_first_max_wit : (repairFold c5Vals exIntSchema).1 ∈ offsetsList c5Vals exIntSchema :=
  (c5_best_is_first_max c5Vals exIntSchema (by decide)).1

theorem overwriteLoop_length (n : Nat) (off : Int) :
    ∀ (vs : List String) (i : Nat) (acc : List String),
      (overwriteLoop n off i vs acc).length = acc.length
  | [], _, _ => rfl
  | v :: vs, i, acc => by
    unfold overwriteLoop
    rw [overwriteLoop_length n off vs (i + 1) _]
    split
    · exact List.length_set _ _ _
    · rfl

theorem overwriteLoop_getD (n : Nat) (off : Int) (j : Nat) (d : String) :
    ∀ (vs : List String) (i : Nat) (acc : List String),
      (∀ k : Nat, k < vs.length → ((i + k : Nat) : Int) + off ≠ (j : Int)) →
      (overwriteLoop n off i vs acc).getD j d = acc.getD j d
  | [], _, _, _ => rfl
  | v :: vs, i, acc, h => by
    unfold overwriteLoop
    rw [overwriteLoop_getD n off j d vs (i + 1) _ ?later]
    case later =>
      intro k hk
      have h2 := h (k + 1) (by simp only [List.length_cons]; omega)
      rw [show i + 1 + k = i + (k + 1) by omega]
      exact h2
    split
    · rename_i hg
      have h0 := h 0 (by simp)
      rw [Nat.add_zero] at h0
      have hne : ((i : Int) + off).toNat ≠ j := by
        intro hEq
        apply h0
        omega
      rw [List.getD_eq_getElem?_getD, List.getD_eq_getElem?_getD, List.getElem?_set_ne hne]
    · rfl

/-- C3: whenever repair returns a row, the row has length exactly len(schema), and
every position not covered by an in-range input field (no input index i maps to it
under the chosen offset) holds the literal string NULL. -/
theorem c3_repair_shape (vals : List String) (schema : List SchemaCol) (r : List String)
    (h : repairRow vals schema = some r) :
    r.length = schema.length ∧
    ∀ j : Nat, j < schema.length →
      (∀ i : Nat, i < vals.length → (i : Int) + (repairFold vals schema).1 ≠ (j : Int)) →
      r.getD j "" = "NULL" := by
  unfold repairRow at h
  split at h
  · exact Option.noConfusion h
  · have hr : r = overwriteLoop schema.length (repairFold vals schema).1 0 vals
        (List.replicate schema.length "NULL") := (Option.some.injEq _ _).mp h.symm
    subst hr
    constructor
    · rw [overwriteLoop_length, List.length_replicate]
    · intro j hj huncov
      rw [overwriteLoop_getD _ _ _ _ _ _ _ ?cov]
      case cov =>
        intro k hk
        have := huncov k hk
        rw [Nat.zero_add]
        exact this
      rw [List.getD_eq_getElem?_getD, List.getElem?_replicate_of_lt hj]
      rfl

/-- Witness for C3: a concrete repaired row has the schema's width. -/
theorem c3_repair_shape_wit :
    repairRow c3Vals exEmailSchema = some ["a@b.com", "NULL"] ∧
    (["a@b.com", "NULL"] : List String).length = exEmailSchema.length :=
  ⟨by decide, (c3_repair_shape c3Vals exEmailSchema ["a@b.com", "NULL"] (by decide)).1⟩

/- Lemmas about first-occurrence insertion and deduplication. -/

theorem mem_insertNew {α : Type} [DecidableEq α] (ks : List α) (n x : α) :
    x ∈ insertNew ks n ↔ x ∈ ks ∨ x = n := by
  unfold insertNew
  split
  · rename_i hn
    constructor
    · exact Or.inl
    · rintro (hx | rfl)
      · exact hx
      · exact hn
  · simp [List.mem_append]

theorem mem_foldl_insertNew {α : Type} [DecidableEq α] :
    ∀ (l acc : List α) (x : α), x ∈ l.foldl insertNew acc ↔ x ∈ acc ∨ x ∈ l
  | [], acc, x => by simp
  | a :: t, acc, x => by
    rw [List.foldl_cons, mem_foldl_insertNew t _ x, mem_insertNew]
    simp only [List.mem_cons]
    tauto

theorem mem_uniqueList {α : Type} [DecidableEq α] (l : List α) (x : α) :
    x ∈ uniqueList l ↔ x ∈ l := by
  unfold uniqueList
  rw [mem_foldl_insertNew]
  simp

/- The fold of insertNew appends exactly the new elements, in an order strictly
   increasing with respect to their first occurrence in the scanned list. -/

theorem insertFold_ext {α : Type} [DecidableEq α] :
    ∀ (l acc : List α),
      ∃ ext, l.foldl insertNew acc = acc ++ ext
        ∧ (∀ b ∈ ext, b ∈ l ∧ b ∉ acc)
        ∧ ext.Pairwise (fun a b => l.indexOf a < l.indexOf b)
  | [], acc => ⟨[], by simp, by simp, List.Pairwise.nil⟩
  | a :: t, acc => by
    by_cases ha : a ∈ acc
    · have hstep : insertNew acc a = acc := by unfold insertNew; rw [if_pos ha]
      obtain ⟨ext, h1, h2, h3⟩ := insertFold_ext t acc
      refine ⟨ext, by rw [List.foldl_cons, hstep, h1], ?_, ?_⟩
      · intro b hb
        exact ⟨List.mem_cons_of_mem _ (h2 b hb).1, (h2 b hb).2⟩
      · refine h3.imp_of_mem ?_
        intro x y hx hy hxy
        have hxa : x ≠ a := fun hEq => (h2 x hx).2 (hEq ▸ ha)
        have hya : y ≠ a := fun hEq => (h2 y hy).2 (hEq ▸ ha)
        rw [List.indexOf_cons_ne _ (Ne.symm hxa), List.indexOf_cons_ne _ (Ne.symm hya)]
        omega
    · have hstep : insertNew acc a = acc ++ [a] := by unfold insertNew; rw [if_neg ha]
      obtain ⟨ext, h1, h2, h3⟩ := insertFold_ext t (acc ++ [a])
      refine ⟨a :: ext, ?_, ?_, ?_⟩
      · rw [List.foldl_cons, hstep, h1, List.append_assoc]
        rfl
      · intro b hb
        rcases List.mem_cons.mp hb with rfl | hbe
        · exact ⟨List.mem_cons_self _ _, ha⟩
        · obtain ⟨hbt, hbna⟩ := h2 b hbe
          exact ⟨List.mem_cons_of_mem _ hbt,
                 fun hbacc => hbna (List.mem_append.mpr (Or.inl hbacc))⟩
      · rw [List.pairwise_cons]
        constructor
        · intro b hb
          have hbna : b ≠ a := fun hEq =>
            (h2 b hb).2 (hEq ▸ List.mem_append.mpr (Or.inr (List.mem_cons_self _ _)))
          rw [List.indexOf_cons_self, List.indexOf_cons_ne _ (Ne.symm hbna)]
          exact Nat.succ_pos _
        · refine h3.imp_of_mem ?_
          intro x y hx hy hxy
          have hxa : x ≠ a := fun hEq =>
            (h2 x hx).2 (hEq ▸ List.mem_append.mpr (Or.inr (List.mem_cons_self _ _)))
          have hya : y ≠ a := fun hEq =>
            (h2 y hy).2 (hEq ▸ List.mem_append.mpr (Or.inr (List.mem_cons_self _ _)))
          rw [List.indexOf_cons_ne _ (Ne.symm hxa), List.indexOf_cons_ne _ (Ne.symm hya)]
          omega

/- Specification of the first-maximum fold used by the majority vote. -/

theorem foldl_pickmax {α : Type} (f : α → Nat) :
    ∀ (ks : List α) (b : α),
      (∀ x ∈ ks, f x ≤ f (ks.foldl (fun b2 k => if f k > f b2 then k else b2) b))
      ∧ f b ≤ f (ks.foldl (fun b2 k => if f k > f b2 then k else b2) b)
      ∧ ((ks.foldl (fun b2 k => if f k > f b2 then k else b2) b) = b
         ∨ ∃ l₁ l₂, ks = l₁ ++ (ks.foldl (fun b2 k => if f k > f b2 then k else b2) b) :: l₂
             ∧ (∀ x ∈ l₁, f x < f (ks.foldl (fun b2 k => if f k > f b2 then k else b2) b))
             ∧ f b < f (ks.foldl (fun b2 k => if f k > f b2 then k else b2) b))
  | [], b => ⟨by simp, le_refl _, Or.inl rfl⟩
  | a :: t, b => by
    have hfold : (a :: t).foldl (fun b2 k => if f k > f b2 then k else b2) b
        = t.foldl (fun b2 k => if f k > f b2 then k else b2)
            (if f a > f b then a else b) := rfl
    obtain ⟨ih1, ih2, ih3⟩ := foldl_pickmax f t (if f a > f b then a else b)
    have hstep : f b ≤ f (if f a > f b then a else b) := by
      split
      · omega
      · exact le_refl _
    have hstepa : f a ≤ f (if f a > f b then a else b) := by
      split
      · exact le_refl _
      · omega
    refine ⟨?_, ?_, ?_⟩
    · intro x hx
      rw [hfold]
      rcases List.mem_cons.mp hx with rfl | hxt
      · exact le_trans hstepa ih2
      · exact ih1 x hxt
    · rw [hfold]
      exact le_trans hstep ih2
    · rw [hfold]
      rcases ih3 with heq | ⟨l₁, l₂, hdec, hstrict, hlt⟩
      · by_cases hgt : f a > f b
        · right
          have hba : (if f a > f b then a else b) = a := if_pos hgt
          refine ⟨[], t, ?_, by simp, ?_⟩
          · rw [heq, hba]
            rfl
          · rw [heq, hba]
            exact hgt
        · left
          have hbb : (if f a > f b then a else b) = b := if_neg hgt
          rw [heq, hbb]
      · right
        refine ⟨a :: l₁, l₂, by rw [List.cons_append, ← hdec], ?_, lt_of_le_of_lt hstep hlt⟩
        intro x hx
        rcases List.mem_cons.mp hx with rfl | hxl
        · exact lt_of_le_of_lt hstepa hlt
        · exact hstrict x hxl

/-- C8: for every column sample, the inferred type is string when no value is
classifiable, and otherwise it is a classification occurring in the sample whose
count is maximal, with ties resolved in favour of the classification seen first
(smallest first-occurrence index). -/
theorem c8_inferType_majority (cd : List String) :
    (classifications cd = [] → inferType cd = "string")
    ∧ (classifications cd ≠ [] →
        inferType cd ∈ classifications cd
        ∧ (∀ t ∈ classifications cd,
            (classifications cd).count t ≤ (classifications cd).count (inferType cd))
        ∧ (∀ t ∈ classifications cd,
            (classifications cd).count t = (classifications cd).count (inferType cd) →
            (classifications cd).indexOf (inferType cd) ≤ (classifications cd).indexOf t)) := by
  cases huq : uniqueList (classifications cd) with
  | nil =>
    have hts : classifications cd = [] := by
      by_contra hne
      obtain ⟨x, hx⟩ := List.exists_mem_of_ne_nil _ hne
      have : x ∈ uniqueList (classifications cd) := (mem_uniqueList _ _).mpr hx
      rw [huq] at this
      exact absurd this (List.not_mem_nil _)
    constructor
    · intro _
      unfold inferType
      rw [huq]
    · intro hne
      exact absurd hts hne
  | cons k ks =>
    have hne' : classifications cd ≠ [] := by
      intro h0
      rw [h0] at huq
      exact List.noConfusion huq
    have hr : inferType cd = ks.foldl (fun b k2 =>
        if (classifications cd).count k2 > (classifications cd).count b then k2 else b) k := by
      unfold inferType
      rw [huq]
    obtain ⟨hp1, hp2, hp3⟩ := foldl_pickmax (fun x => (classifications cd).count x) ks k
    have hdecomp : ∃ l₁ l₂, (k :: ks) = l₁ ++ (inferType cd) :: l₂
        ∧ ∀ x ∈ l₁, (classifications cd).count x < (classifications cd).count (inferType cd) := by
      rcases hp3 with heq | ⟨l₁, l₂, hdec, hstrict, hlt⟩
      · refine ⟨[], ks, ?_, by simp⟩
        rw [hr, heq]
        rfl
      · refine ⟨k :: l₁, l₂, ?_, ?_⟩
        · rw [hr, List.cons_append, ← hdec]
        · intro x hx
          rcases List.mem_cons.mp hx with rfl | hxl
          · rw [hr]
            exact hlt
          · rw [hr]
            exact hstrict x hxl
    obtain ⟨l₁, l₂, hdec, hstrict⟩ := hdecomp
    have hmem : inferType cd ∈ classifications cd := by
      rw [← mem_uniqueList, huq, hdec]
      exact List.mem_append.mpr (Or.inr (List.mem_cons_self _ _))
    constructor
    · intro h0
      exact absurd h0 hne'
    · intro _
      refine ⟨hmem, ?_, ?_⟩
      · intro t ht
        have htk : t ∈ (k :: ks) := by
          rw [← huq, mem_uniqueList]
          exact ht
        rcases List.mem_cons.mp htk with rfl | htt
        · rw [hr]
          exact hp2
        · rw [hr]
          exact hp1 t htt
      · intro t ht hcnt
        have htk : t ∈ (k :: ks) := by
          rw [← huq, mem_uniqueList]
          exact ht
        have hnotl₁ : t ∉ l₁ := by
          intro hl
          have := hstrict t hl
          rw [hcnt] at this
          exact absurd this (lt_irrefl _)
        rw [hdec] at htk
        rcases List.mem_append.mp htk with hl | hr2
        · exact absurd hl hnotl₁
        · rcases List.mem_cons.mp hr2 with rfl | hl₂
          · exact le_refl _
          · obtain ⟨ext, hext1, hext2, hext3⟩ := insertFold_ext (classifications cd) []
            have huq2 : ext = (k :: ks) := by
              rw [← huq]
              unfold uniqueList
              rw [hext1]
              simp
            rw [huq2, hdec] at hext3
            exact le_of_lt
              ((List.pairwise_cons.mp (List.pairwise_append.mp hext3).2.1).1 t hl₂)

/-- Witness for C8: a concrete sample with a count tie resolved to the
first-seen classification. -/
theorem c8_inferType_majority_wit :
    inferType c8Sample ∈ classifications c8Sample ∧ inferType c8Sample = "string" :=
  ⟨((c8_inferType_majority c8Sample).2 (by decide)).1, by decide⟩

/- Equality of the two tokenizer step functions. -/

theorem quoteFlag_eq (st : TokSt) (c : Char) : quoteFlagRepair st c = quoteFlagExport st c := by
  unfold quoteFlagRepair quoteFlagExport
  simp only [List.isEmpty_iff]

theorem tokStep_eq (st : TokSt) (c : Char) : tokStepRepair st c = tokStepExport st c := by
  have hq : quoteFlagRepair st c = quoteFlagExport st c := quoteFlag_eq st c
  unfold tokStepRepair tokStepExport
  rw [hq]
  by_cases h1 : quoteFlagExport st c = true
  · simp [h1]
  · by_cases h2 : c = '('
    · simp [h1, h2]
    · by_cases h3 : c = ')'
      · simp [h1, h2, h3]
      · simp [h1, h2, h3]

theorem tokStepExport_rows (st : TokSt) (c : Char) (h : c ≠ ')') :
    (tokStepExport st c).rows = st.rows := by
  simp only [tokStepExport]
  split_ifs <;> rfl

theorem foldl_tokStepExport_rows :
    ∀ (l : List Char) (st : TokSt), (∀ c ∈ l, c ≠ ')') →
      (l.foldl tokStepExport st).rows = st.rows
  | [], _, _ => rfl
  | c :: t, st, h => by
    rw [List.foldl_cons, foldl_tokStepExport_rows t _ (fun d hd => h d (List.mem_cons_of_mem _ hd)),
      tokStepExport_rows st c (h c (List.mem_cons_self _ _))]

theorem tokStepExport_inert (st : TokSt) (c : Char) (hsp : pyIsSpace c = true)
    (hin : st.inStr = false) (hlv : st.lvl = 0) : tokStepExport st c = st := by
  have hc1 : c ≠ sqQuote := by
    intro hEq
    rw [hEq] at hsp
    exact absurd hsp (by decide)
  have hc2 : c ≠ '(' := by
    intro hEq
    rw [hEq] at hsp
    exact absurd hsp (by decide)
  have hc3 : c ≠ ')' := by
    intro hEq
    rw [hEq] at hsp
    exact absurd hsp (by decide)
  obtain ⟨si, sl, sb, sr⟩ := st
  dsimp only at hin hlv
  subst hin
  subst hlv
  have hqf : quoteFlagExport ⟨false, 0, sb, sr⟩ c = false := by
    unfold quoteFlagExport
    rw [if_neg (fun hand => hc1 hand.1)]
  simp only [tokStepExport, hqf, hc2, hc3]
  simp

theorem foldl_tokStepExport_inert :
    ∀ (l : List Char) (st : TokSt), (∀ c ∈ l, pyIsSpace c = true) →
      st.inStr = false → st.lvl = 0 → l.foldl tokStepExport st = st
  | [], _, _, _, _ => rfl
  | c :: t, st, h, hin, hlv => by
    rw [List.foldl_cons, tokStepExport_inert st c (h c (List.mem_cons_self _ _)) hin hlv,
      foldl_tokStepExport_inert t st (fun d hd => h d (List.mem_cons_of_mem _ hd)) hin hlv]

/- Decompositions induced by strip and removesuffix. -/

theorem getLastSome_decomp {α : Type} :
    ∀ (l : List α) (x : α), l.getLast? = some x → l = l.dropLast ++ [x]
  | [], x, h => by simp at h
  | [a], x, h => by
    simp only [List.getLast?_singleton, Option.some.injEq] at h
    rw [h]
    rfl
  | a :: b :: t, x, h => by
    have h2 : (b :: t).getLast? = some x := by
      rw [← h]
      rfl
    have := getLastSome_decomp (b :: t) x h2
    calc a :: b :: t = a :: ((b :: t).dropLast ++ [x]) := by rw [← this]
      _ = (a :: b :: t).dropLast ++ [x] := by rfl

theorem pyStrip_decomp (l : List Char) :
    ∃ pre suf, l = pre ++ pyStrip l ++ suf
      ∧ (∀ c ∈ pre, pyIsSpace c = true) ∧ (∀ c ∈ suf, pyIsSpace c = true) := by
  refine ⟨l.takeWhile pyIsSpace, ((l.dropWhile pyIsSpace).reverse.takeWhile pyIsSpace).reverse,
    ?_, ?_, ?_⟩
  · have hmid : l.dropWhile pyIsSpace
        = pyStrip l ++ ((l.dropWhile pyIsSpace).reverse.takeWhile pyIsSpace).reverse := by
      unfold pyStrip pyStripR
      calc l.dropWhile pyIsSpace = (l.dropWhile pyIsSpace).reverse.reverse := by
            rw [List.reverse_reverse]
        _ = ((l.dropWhile pyIsSpace).reverse.takeWhile pyIsSpace
              ++ (l.dropWhile pyIsSpace).reverse.dropWhile pyIsSpace).reverse := by
            rw [List.takeWhile_append_dropWhile]
        _ = ((l.dropWhile pyIsSpace).reverse.dropWhile pyIsSpace).reverse
              ++ ((l.dropWhile pyIsSpace).reverse.takeWhile pyIsSpace).reverse := by
            rw [List.reverse_append]
    calc l = l.takeWhile pyIsSpace ++ l.dropWhile pyIsSpace := by
          rw [List.takeWhile_append_dropWhile]
      _ = l.takeWhile pyIsSpace ++ (pyStrip l
            ++ ((l.dropWhile pyIsSpace).reverse.takeWhile pyIsSpace).reverse) := by rw [← hmid]
      _ = l.takeWhile pyIsSpace ++ pyStrip l
            ++ ((l.dropWhile pyIsSpace).reverse.takeWhile pyIsSpace).reverse := by
          rw [List.append_assoc]
  · intro c hc
    exact List.mem_takeWhile_imp hc
  · intro c hc
    exact List.mem_takeWhile_imp (List.mem_reverse.mp hc)

theorem pyRemoveSuffixSemi_decomp (l : List Char) :
    ∃ semi, l = pyRemoveSuffixSemi l ++ semi ∧ ∀ c ∈ semi, c = ';' := by
  unfold pyRemoveSuffixSemi
  split
  · rename_i hlast
    refine ⟨[';'], getLastSome_decomp l ';' hlast, ?_⟩
    intro c hc
    simpa using hc
  · exact ⟨[], by simp, by simp⟩

/-- C9: for every input string, the repair pass's value-list tokenizer produces
exactly the same row sequence as the exporter's tokenizer: its extra
strip().removesuffix(';') preprocessing never changes the emitted rows, and the
per-character state machines are extensionally equal. -/
theorem c9_tokenizers_agree (s : String) : runTokRepair s.data = runTokExport s.data := by
  have hfoldeq : ∀ (l : List Char) (st : TokSt),
      l.foldl tokStepRepair st = l.foldl tokStepExport st := by
    intro l
    induction l with
    | nil => intro st; rfl
    | cons c t ih =>
      intro st
      rw [List.foldl_cons, List.foldl_cons, tokStep_eq, ih]
  obtain ⟨pre, suf, hdec, hpre, hsuf⟩ := pyStrip_decomp s.data
  obtain ⟨semi, hsemi, hsemic⟩ := pyRemoveSuffixSemi_decomp (pyStrip s.data)
  unfold runTokRepair runTokExport
  rw [hfoldeq]
  conv_rhs => rw [hdec, hsemi]
  rw [List.foldl_append, List.foldl_append, List.foldl_append,
    foldl_tokStepExport_inert pre initTok hpre rfl rfl,
    foldl_tokStepExport_rows suf _ ?sufok, foldl_tokStepExport_rows semi _ ?semiok]
  case sufok =>
    intro c hc
    intro hEq
    have := hsuf c hc
    rw [hEq] at this
    exact absurd this (by decide)
  case semiok =>
    intro c hc
    intro hEq
    have := hsemic c hc
    rw [hEq] at this
    exact absurd this (by decide)

/- The statement fold of process_table accumulates kept rows by concatenation. -/

theorem processFold_fst (dh : List String) :
    ∀ (l : List String) (a : List (List String)) (b : List String),
      (l.foldl (fun acc st =>
        let p := statementSplit dh st
        (acc.1 ++ p.1, acc.2 ++ p.2)) (a, b)).1
      = a ++ (l.map (fun st => (statementSplit dh st).1)).flatten
  | [], a, b => by simp
  | st :: t, a, b => by
    show (t.foldl (fun acc st =>
        let p := statementSplit dh st
        (acc.1 ++ p.1, acc.2 ++ p.2)) (a ++ (statementSplit dh st).1, b ++ (statementSplit dh st).2)).1
      = a ++ ((st :: t).map (fun st => (statementSplit dh st).1)).flatten
    rw [processFold_fst dh t _ _]
    simp [List.append_assoc]

theorem mem_processTable_allValues (e : TableEntry) (n : String) (x : List String) :
    x ∈ (processTableModel e n).allValues ↔
      ∃ st ∈ e.inserts,
        x ∈ (statementSplit (if e.create ≠ "" then headersFromCreate e.create else []) st).1 := by
  show x ∈ (e.inserts.foldl (fun acc st =>
      let p := statementSplit (if e.create ≠ "" then headersFromCreate e.create else []) st
      (acc.1 ++ p.1, acc.2 ++ p.2)) ([], [])).1 ↔ _
  rw [processFold_fst]
  simp only [List.nil_append, List.mem_flatten, List.mem_map]
  constructor
  · rintro ⟨l, ⟨st, hst, rfl⟩, hx⟩
    exact ⟨st, hst, hx⟩
  · rintro ⟨st, hst, hx⟩
    exact ⟨_, ⟨st, hst, rfl⟩, hx⟩

theorem mem_processTable_unique (e : TableEntry) (n : String) (x : List String) :
    x ∈ (processTableModel e n).uniqueValues ↔ x ∈ (processTableModel e n).allValues := by
  show x ∈ uniqueList (processTableModel e n).allValues ↔ _
  rw [mem_uniqueList]

/-- C6: the unique-row set of a table export is a function of the set of kept rows
only: permuting the insert statements, or processing them twice, yields the same
unique-row set, and the unique rows are exactly the kept rows up to deduplication
by field-sequence equality. -/
theorem c6_unique_set_invariant (e1 e2 : TableEntry) (n : String)
    (hc : e2.create = e1.create) (hperm : e2.inserts.Perm e1.inserts) :
    ((processTableModel e2 n).uniqueValues.toFinset
        = (processTableModel e1 n).uniqueValues.toFinset)
    ∧ (∀ e3 : TableEntry, e3.create = e1.create → e3.inserts = e1.inserts ++ e1.inserts →
        (processTableModel e3 n).uniqueValues.toFinset
          = (processTableModel e1 n).uniqueValues.toFinset)
    ∧ (processTableModel e1 n).uniqueValues.toFinset
        = (processTableModel e1 n).allValues.toFinset := by
  refine ⟨?_, ?_, ?_⟩
  · ext x
    simp only [List.mem_toFinset, mem_processTable_unique, mem_processTable_allValues, hc]
    constructor
    · rintro ⟨st, hst, hx⟩
      exact ⟨st, hperm.mem_iff.mp hst, hx⟩
    · rintro ⟨st, hst, hx⟩
      exact ⟨st, hperm.mem_iff.mpr hst, hx⟩
  · intro e3 hc3 hi3
    ext x
    simp only [List.mem_toFinset, mem_processTable_unique, mem_processTable_allValues, hc3, hi3]
    constructor
    · rintro ⟨st, hst, hx⟩
      rcases List.mem_append.mp hst with h | h
      · exact ⟨st, h, hx⟩
      · exact ⟨st, h, hx⟩
    · rintro ⟨st, hst, hx⟩
      exact ⟨st, List.mem_append.mpr (Or.inl hst), hx⟩
  · ext x
    simp only [List.mem_toFinset, mem_processTable_unique]

/-- Witness for C6: concrete permuted statement lists produce the same unique set. -/
theorem c6_unique_set_invariant_wit :
    (processTableModel ⟨"", [c6StmtB, c6StmtA]⟩ "t").uniqueValues.toFinset
      = (processTableModel ⟨"", [c6StmtA, c6StmtB]⟩ "t").uniqueValues.toFinset :=
  (c6_unique_set_invariant ⟨"", [c6StmtA, c6StmtB]⟩ ⟨"", [c6StmtB, c6StmtA]⟩ "t" rfl
    (by decide)).1

/-- C1: evaluation at a failing input. For the dump containing only
`INSERT INTO t VALUES (1,2);` (no CREATE statement), process_table keeps the
unique row ["1","2"] against the synthesized two-column active header, yet the
written CSV has headers ["column_1","table"] and no data rows at all, because
_write_to_csv filters rows against the CREATE-derived default headers rather
than the active headers: a kept unique row is silently omitted at write time,
contradicting the claim. -/
theorem c1_kept_row_omitted_at_write :
    processTableModel c1Entry "t" =
      ⟨[["1", "2"]], [], [["1", "2"]], some (["column_1", "table"], [])⟩
    ∧ (processTableModel c1Entry "t").allValues ≠ []
    ∧ (processTableModel c1Entry "t").written = some (["column_1", "table"], []) := by
  exact ⟨by decide, by decide, by decide⟩

/-- C2 counterexample: for `INSERT INTO users (id, email) VALUES (1, 'a@b.com'),
(2, 'bad');` the inline-header regex (which requires literal spaces inside the
parentheses) does not match, so the active header is not resolved to [id, email],
and the export does not produce the claimed CSV data rows: the tokenizer keeps
the quotes and leading spaces, and the write step emits no data rows. -/
theorem c2_example_counterexample :
    inlineActive c2Stmt = none
    ∧ (processTableModel c2Entry "users").written ≠
        some (["id", "email", "table"], [["1", "a@b.com", "users"], ["2", "bad", "users"]])
    ∧ ["1", "a@b.com"] ∉ (processTableModel c2Entry "users").allValues := by
  exact ⟨by decide, by decide, by decide⟩

set_option maxRecDepth 10000 in
/-- C2 amended: exporting `INSERT INTO users (id, email) VALUES (1, 'a@b.com'),
(2, 'bad');` leaves the inline column list unmatched, synthesizes the two-column
header, keeps the rows ["1", " 'a@b.com'"] and ["2", " 'bad'"] (quotes and
leading spaces preserved), and writes a CSV with header ["column_1","table"] and
no data rows. -/
theorem c2_example_amended :
    processTableModel c2Entry "users" =
      ⟨[c2Row1, c2Row2], [], [c2Row1, c2Row2], some (["column_1", "table"], [])⟩ := by
  decide

/- Lemmas about the table index (ordered association list). -/

theorem findEntry_none_iff :
    ∀ (idx : List (String × TableEntry)) (n : String),
      findEntry idx n = none ↔ n ∉ idx.map Prod.fst
  | [], n => by simp [findEntry]
  | p :: t, n => by
    unfold findEntry
    by_cases hp : p.1 = n
    · simp [hp]
    · rw [if_neg hp, findEntry_none_iff t n]
      simp [Ne.symm hp]

theorem keys_setCreate (idx : List (String × TableEntry)) (n stmt : String) :
    (setCreate idx n stmt).map Prod.fst = idx.map Prod.fst := by
  unfold setCreate
  rw [List.map_map]
  apply List.map_congr_left
  intro p _
  dsimp
  split <;> rfl

theorem keys_addInsert (idx : List (String × TableEntry)) (n stmt : String) :
    (addInsert idx n stmt).map Prod.fst = idx.map Prod.fst := by
  unfold addInsert
  rw [List.map_map]
  apply List.map_congr_left
  intro p _
  dsimp
  split <;> rfl

theorem findEntry_setCreate :
    ∀ (idx : List (String × TableEntry)) (n stmt : String),
      findEntry (setCreate idx n stmt) n
        = (findEntry idx n).map (fun e => TableEntry.mk stmt e.inserts)
  | [], _, _ => rfl
  | p :: t, n, stmt => by
    by_cases hp : p.1 = n
    · simp [setCreate, findEntry, hp]
    · simp only [setCreate, List.map_cons, findEntry, hp, if_false, if_neg hp]
      exact findEntry_setCreate t n stmt

theorem findEntry_addInsert :
    ∀ (idx : List (String × TableEntry)) (n stmt : String),
      findEntry (addInsert idx n stmt) n
        = (findEntry idx n).map (fun e => TableEntry.mk e.create (e.inserts ++ [stmt]))
  | [], _, _ => rfl
  | p :: t, n, stmt => by
    by_cases hp : p.1 = n
    · simp [addInsert, findEntry, hp]
    · simp only [addInsert, List.map_cons, findEntry, hp, if_false, if_neg hp]
      exact findEntry_addInsert t n stmt

theorem ensureTable_existing (idx : List (String × TableEntry)) (n : String) (e : TableEntry)
    (h : findEntry idx n = some e) : ensureTable idx n = idx := by
  unfold ensureTable
  rw [h]
  rfl

theorem ensureTable_missing (idx : List (String × TableEntry)) (n : String)
    (h : findEntry idx n = none) : ensureTable idx n = idx ++ [(n, ⟨"", []⟩)] := by
  unfold ensureTable
  rw [h]
  rfl

theorem findEntry_append_none :
    ∀ (idx : List (String × TableEntry)) (n : String) (x : TableEntry),
      findEntry idx n = none → findEntry (idx ++ [(n, x)]) n = some x
  | [], n, x, _ => by simp [findEntry]
  | p :: t, n, x, h => by
    rw [show findEntry (p :: t) n = (if p.1 = n then some p.2 else findEntry t n) from rfl] at h
    rw [show findEntry ((p :: t) ++ [(n, x)]) n
        = (if p.1 = n then some p.2 else findEntry (t ++ [(n, x)]) n) from rfl]
    by_cases hp : p.1 = n
    · rw [if_pos hp] at h
      exact Option.noConfusion h
    · rw [if_neg hp] at h ⊢
      exact findEntry_append_none t n x h

theorem keys_ensureTable (idx : List (String × TableEntry)) (n : String) :
    (ensureTable idx n).map Prod.fst = insertNew (idx.map Prod.fst) n := by
  unfold ensureTable insertNew
  cases hf : findEntry idx n with
  | none =>
    have hnm : n ∉ idx.map Prod.fst := (findEntry_none_iff idx n).mp hf
    rw [if_neg (by simp), if_neg hnm, List.map_append]
    rfl
  | some e =>
    have hnm : n ∈ idx.map Prod.fst := by
      by_contra hno
      rw [← findEntry_none_iff idx n] at hno
      rw [hf] at hno
      exact Option.noConfusion hno
    rw [if_pos (by simp), if_pos hnm]

theorem keys_stepStmt (idx : List (String × TableEntry)) (stmt : String) :
    (stepStmt idx stmt).map Prod.fst =
      match discoveredName stmt with
      | none => idx.map Prod.fst
      | some n => insertNew (idx.map Prod.fst) n := by
  unfold stepStmt discoveredName
  cases hc : createSearch stmt.data with
  | some w => rw [keys_setCreate, keys_ensureTable]
  | none =>
    cases hi : insertSearch stmt.data with
    | some w => rw [keys_addInsert, keys_ensureTable]; rfl
    | none => rfl

theorem keys_buildFold :
    ∀ (stmts : List String) (idx : List (String × TableEntry)),
      (stmts.foldl stepStmt idx).map Prod.fst
        = (stmts.filterMap discoveredName).foldl insertNew (idx.map Prod.fst)
  | [], _ => rfl
  | s :: t, idx => by
    rw [List.foldl_cons, keys_buildFold t _, List.filterMap_cons]
    cases hd : discoveredName s with
    | none =>
      rw [keys_stepStmt idx s, hd]
    | some n =>
      rw [keys_stepStmt idx s, hd, List.foldl_cons]

theorem insertNew_nodup {α : Type} [DecidableEq α] (ks : List α) (n : α) (h : ks.Nodup) :
    (insertNew ks n).Nodup := by
  unfold insertNew
  split
  · exact h
  · rename_i hn
    exact (List.perm_append_singleton n ks).nodup_iff.mpr (List.nodup_cons.mpr ⟨hn, h⟩)

theorem foldl_insertNew_nodup {α : Type} [DecidableEq α] :
    ∀ (l acc : List α), acc.Nodup → (l.foldl insertNew acc).Nodup
  | [], _, h => h
  | a :: t, acc, h => by
    rw [List.foldl_cons]
    exact foldl_insertNew_nodup t _ (insertNew_nodup acc a h)

/-- C7: build_index returns the discovered table names in first-discovery order
with no duplicates (one entry per distinct name, inserted lazily on first
sighting in a CREATE or INSERT statement), a later CREATE for an existing table
overwrites the stored create statement while keeping its accumulated insert
statements, and an INSERT appends to the entry without touching its create
statement. -/
theorem c7_buildIndex_spec :
    (∀ lines : List String,
        buildIndexKeys lines
          = ((segmentStatements lines).filterMap discoveredName).foldl insertNew []
        ∧ (buildIndexKeys lines).Nodup)
    ∧ (∀ (idx : List (String × TableEntry)) (stmt : String) (w : List Char) (e : TableEntry),
        createSearch stmt.data = some w → findEntry idx (String.mk w) = some e →
        findEntry (stepStmt idx stmt) (String.mk w) = some ⟨stmt, e.inserts⟩)
    ∧ (∀ (idx : List (String × TableEntry)) (stmt : String) (w : List Char),
        createSearch stmt.data = some w → findEntry idx (String.mk w) = none →
        findEntry (stepStmt idx stmt) (String.mk w) = some ⟨stmt, []⟩
        ∧ (stepStmt idx stmt).map Prod.fst = idx.map Prod.fst ++ [String.mk w])
    ∧ (∀ (idx : List (String × TableEntry)) (stmt : String) (w : List Char) (e : TableEntry),
        createSearch stmt.data = none → insertSearch stmt.data = some w →
        findEntry idx (String.mk w) = some e →
        findEntry (stepStmt idx stmt) (String.mk w) = some ⟨e.create, e.inserts ++ [stmt]⟩)
    ∧ (∀ (idx : List (String × TableEntry)) (stmt : String) (w : List Char),
        createSearch stmt.data = none → insertSearch stmt.data = some w →
        findEntry idx (String.mk w) = none →
        findEntry (stepStmt idx stmt) (String.mk w) = some ⟨"", [stmt]⟩
        ∧ (stepStmt idx stmt).map Prod.fst = idx.map Prod.fst ++ [String.mk w]) := by
  refine ⟨?_, ?_, ?_, ?_, ?_⟩
  · intro lines
    have hkeys : buildIndexKeys lines
        = ((segmentStatements lines).filterMap discoveredName).foldl insertNew [] := by
      unfold buildIndexKeys buildIndexModel
      rw [keys_buildFold]
      rfl
    exact ⟨hkeys, by rw [hkeys]; exact foldl_insertNew_nodup _ [] List.nodup_nil⟩
  · intro idx stmt w e hc hf
    have hstep : stepStmt idx stmt
        = setCreate (ensureTable idx (String.mk w)) (String.mk w) stmt := by
      unfold stepStmt
      rw [hc]
    rw [hstep, ensureTable_existing idx _ e hf, findEntry_setCreate, hf]
    rfl
  · intro idx stmt w hc hf
    have hstep : stepStmt idx stmt
        = setCreate (ensureTable idx (String.mk w)) (String.mk w) stmt := by
      unfold stepStmt
      rw [hc]
    rw [hstep, ensureTable_missing idx _ hf]
    constructor
    · rw [findEntry_setCreate, findEntry_append_none idx _ _ hf]
      rfl
    · rw [keys_setCreate, List.map_append]
      rfl
  · intro idx stmt w e hc hi hf
    have hstep : stepStmt idx stmt
        = addInsert (ensureTable idx (String.mk w)) (String.mk w) stmt := by
      unfold stepStmt
      rw [hc, hi]
    rw [hstep, ensureTable_existing idx _ e hf, findEntry_addInsert, hf]
    rfl
  · intro idx stmt w hc hi hf
    have hstep : stepStmt idx stmt
        = addInsert (ensureTable idx (String.mk w)) (String.mk w) stmt := by
      unfold stepStmt
      rw [hc, hi]
    rw [hstep, ensureTable_missing idx _ hf]
    constructor
    · rw [findEntry_addInsert, findEntry_append_none idx _ _ hf]
      rfl
    · rw [keys_addInsert, List.map_append]
      rfl

/-- Witness for C7: a later CREATE overwrites the stored create statement of an
existing entry while keeping its accumulated insert statements. -/
theorem c7_buildIndex_spec_wit :
    findEntry (stepStmt c7Idx c7Create) (String.mk ['t']) = some ⟨c7Create, ["i1"]⟩ :=
  c7_buildIndex_spec.2.1 c7Idx c7Create ['t'] ⟨"old", ["i1"]⟩ (by decide) (by decide)

/- When the separator occurs nowhere, Python split returns the whole string. -/

theorem splitSeqGo_nosub (sep : List Char) :
    ∀ (l cur : List Char), containsSub sep l = false →
      splitSeqGo sep cur l = [cur.reverse ++ l]
  | [], cur, _ => by simp [splitSeqGo]
  | c :: t, cur, h => by
    unfold containsSub at h
    rw [Bool.or_eq_false_iff] at h
    obtain ⟨h1, h2⟩ := h
    rw [splitSeqGo]
    rw [if_neg]
    · rw [splitSeqGo_nosub sep t (c :: cur) h2]
      simp
    · intro hand
      exact absurd hand.2 (by simp [h1])

theorem extractTableName_none (csvName : String)
    (h : containsSub " - ".data csvName.data = false) :
    extractTableName csvName = none := by
  unfold extractTableName splitSeq
  rw [splitSeqGo_nosub _ _ _ h]

/-- C10: for every companion CSV file name that does not contain the substring
" - ", the table-name extraction of run_recovery (name.split(' - ')[1]) fails
with an IndexError, modelled as None, so the recovery pass produces neither
recovered rows nor a failed-recovery list. -/
theorem c10_run_recovery_indexerror (csvName : String) (schema : List SchemaCol)
    (failLines : List String) (h : containsSub " - ".data csvName.data = false) :
    extractTableName csvName = none ∧ runRecoveryModel csvName schema failLines = none := by
  refine ⟨extractTableName_none csvName h, ?_⟩
  unfold runRecoveryModel splitSeq
  rw [splitSeqGo_nosub _ _ _ h]

/-- Witness for C10: a concrete file name without " - " yields no recovery output. -/
theorem c10_run_recovery_indexerror_wit :
    extractTableName "users.csv" = none ∧ runRecoveryModel "users.csv" [] [] = none :=
  c10_run_recovery_indexerror "users.csv" [] [] (by decide)
